import Mathlib

/-!
Verification of the job-orchestration and progress-tracking subsystem of the
`stock` repository: the persisted progress store (`instock/lib/progress_tracker.py`),
the progress aggregator and global-slot orchestrator (`instock/web/dataUpdateHandler.py`),
the keyed orchestrator (`instock/web/jobUpdateHandler.py`), and the schedule
validation/merge logic (`instock/web/configHandler.py`).

Modelling conventions, used throughout:
* Python numbers are embedded as `ℤ`/`ℚ` (exact arithmetic; float rounding
  artifacts of CPython are outside the model).  `round(x, 2)` is embedded as
  exact rational round-half-to-even (`round2`).
* Python dicts are embedded as association lists with first-match lookup;
  reachable dicts have pairwise-distinct keys.
* A JSON record's "key absent" and "key set to None" both read back as `None`
  via `dict.get`, so both are embedded as `Option.none` where the distinction
  is unobservable to the code under study.
* Character classes (`\d`, `str.strip`, `str.split`) are embedded over the
  ASCII subset actually exercised by the cron syntax.
* I/O effects (the progress JSON file, the config file) are embedded as
  explicit state values threaded through the functions; exceptions are
  embedded as `Except`.
-/

/-- Floor of a rational, computable by kernel reduction. -/
def qfloor (q : ℚ) : ℤ := q.num.fdiv q.den

/-- Round-half-to-even to an integer, the tie-breaking used by Python `round`. -/
def roundHalfEvenZ (q : ℚ) : ℤ :=
  let f : ℤ := qfloor q
  let r : ℚ := q - (f : ℚ)
  if r < 1/2 then f
  else if (1:ℚ)/2 < r then f + 1
  else if 2 ∣ f then f else f + 1

/-- Embedding of Python `round(x, 2)` under exact rational arithmetic. -/
def round2 (q : ℚ) : ℚ := (roundHalfEvenZ (q * 100) : ℚ) / 100

/-- Whitespace per Python `str.strip()` / `str.split()` (ASCII subset). -/
def isPyWs (c : Char) : Bool := c.isWhitespace

/-- Drop a trailing run of whitespace characters. -/
def dropTrailingWs : List Char → List Char
  | [] => []
  | c :: rest =>
    let r := dropTrailingWs rest
    if r.isEmpty && isPyWs c then [] else c :: r

/-- Strip leading and trailing whitespace from a character list. -/
def stripList (l : List Char) : List Char := dropTrailingWs (l.dropWhile isPyWs)

/-- Embedding of Python `str.strip()`. -/
def pstrip (s : String) : String := ⟨stripList s.data⟩

/-- Helper for `psplitWs`: accumulate the current word (reversed). -/
def splitWsAux : List Char → List Char → List (List Char)
  | [], cur => if cur.isEmpty then [] else [cur.reverse]
  | c :: rest, cur =>
    if isPyWs c then
      if cur.isEmpty then splitWsAux rest [] else cur.reverse :: splitWsAux rest []
    else splitWsAux rest (c :: cur)

/-- Embedding of Python `str.split()` with no argument: split on whitespace
runs, discarding empty fields. -/
def psplitWs (s : String) : List String := (splitWsAux s.data []).map (fun l => ⟨l⟩)

/-- First-match lookup in an association list (Python `dict.get`). -/
def alookup {α : Type} : List (String × α) → String → Option α
  | [], _ => none
  | (k, v) :: rest, key => if k = key then some v else alookup rest key

/-- Set a key in an association list: replace the first binding in place, or
append a fresh binding (Python `dict.__setitem__` key-order semantics). -/
def aset {α : Type} : List (String × α) → String → α → List (String × α)
  | [], key, v => [(key, v)]
  | (k, w) :: rest, key, v =>
    if k = key then (key, v) :: rest else (k, w) :: aset rest key v

/-- Remove all bindings of a key (Python `dict.pop` on unique-key dicts). -/
def aremove {α : Type} (l : List (String × α)) (key : String) : List (String × α) :=
  l.filter (fun p => p.1 ≠ key)

/-- Apply a function to the value bound to a key, if present. -/
def amodify {α : Type} : List (String × α) → String → (α → α) → List (String × α)
  | [], _, _ => []
  | (k, v) :: rest, key, f =>
    if k = key then (k, f v) :: rest else (k, v) :: amodify rest key f

/-- One stored progress record, as serialized by `progress_tracker.update`
(`current`, `total`, `message`, `timestamp`, `progress`, optional `success`). -/
structure SRec where
  current : ℤ
  total : Option ℤ
  message : String
  timestamp : ℚ
  progress : Option ℚ
  success : Option Bool
deriving DecidableEq, Repr

/-- The progress JSON file: missing, unreadable (malformed JSON), or a parsed
mapping from task id to record. -/
inductive FileState where
  | missing : FileState
  | malformed : FileState
  | good : List (String × SRec) → FileState
deriving DecidableEq, Repr

namespace ProgressTracker

/-- Embedding of `progress_tracker._read_all`: a missing file reads as `{}`;
a `json.load` failure is caught, logged and degrades to `{}`. -/
def _read_all : FileState → List (String × SRec)
  | FileState.missing => []
  | FileState.malformed => []
  | FileState.good d => d

/-- Embedding of `progress_tracker.update`.  Note `data.setdefault(task_id, {})`
starts from the previously stored record, so the `success` key — written only
when the `success` argument is not `None` — survives from the prior record. -/
def update (fs : FileState) (task_id : String) (current : ℤ) (total : Option ℤ)
    (message : String) (timestamp : ℚ) (success : Option Bool) : FileState :=
  let data := _read_all fs
  let prior := alookup data task_id
  let progress : Option ℚ :=
    match total with
    | some t => if 0 < t then some (round2 ((current : ℚ) / (t : ℚ) * 100)) else none
    | none => none
  let newSuccess : Option Bool :=
    match success with
    | some b => some b
    | none => prior.bind (fun r => r.success)
  FileState.good (aset data task_id ⟨current, total, message, timestamp, progress, newSuccess⟩)

/-- Embedding of `progress_tracker.clear`: no-op when the file is missing;
otherwise re-persists only when the key was present. -/
def clear (fs : FileState) (task_id : String) : FileState :=
  match fs with
  | FileState.missing => FileState.missing
  | _ =>
    let data := _read_all fs
    if (alookup data task_id).isSome then FileState.good (aremove data task_id) else fs

/-- Embedding of `progress_tracker.get`. -/
def get (fs : FileState) (task_id : String) : Option SRec :=
  match fs with
  | FileState.missing => none
  | _ => alookup (_read_all fs) task_id

/-- Embedding of `progress_tracker.get_many`: only keys with a present record
appear in the result. -/
def get_many (fs : FileState) (task_ids : List String) : List (String × SRec) :=
  task_ids.filterMap (fun k => (alookup (_read_all fs) k).map (fun r => (k, r)))

end ProgressTracker

/-- Health of the durable medium for the persist step (`_write_all`). -/
inductive Disk where
  | ok : Disk
  | failing : Disk
deriving DecidableEq

namespace ProgressTracker

/-- Embedding of `progress_tracker._write_all`: the temp-write-then-rename has
no exception handler in the source, so a failing disk raises to the caller. -/
def _write_all (d : Disk) (data : List (String × SRec)) : Except String FileState :=
  match d with
  | Disk.ok => Except.ok (FileState.good data)
  | Disk.failing => Except.error "OSError"

/-- `update` with its persist step made explicit: the read degrades to an
empty store, but the write is not guarded, so its failure propagates. -/
def updateE (d : Disk) (fs : FileState) (task_id : String) (current : ℤ)
    (total : Option ℤ) (message : String) (timestamp : ℚ) (success : Option Bool) :
    Except String FileState :=
  match update fs task_id current total message timestamp success with
  | FileState.good data => _write_all d data
  | other => Except.ok other

/-- `clear` with its persist step made explicit: it writes only when the file
exists and the key is present, and that write is not guarded. -/
def clearE (d : Disk) (fs : FileState) (task_id : String) : Except String FileState :=
  match fs with
  | FileState.missing => Except.ok FileState.missing
  | _ =>
    let data := _read_all fs
    if (alookup data task_id).isSome then _write_all d (aremove data task_id)
    else Except.ok fs

/-- `get` never writes and its read degrades, so it cannot raise. -/
def getE (fs : FileState) (task_id : String) : Except String (Option SRec) :=
  Except.ok (get fs task_id)

/-- `get_many` never writes and its read degrades, so it cannot raise. -/
def get_manyE (fs : FileState) (task_ids : List String) :
    Except String (List (String × SRec)) :=
  Except.ok (get_many fs task_ids)

end ProgressTracker

/-- The view of a progress record taken by the aggregator
(`info.get('progress')`, `info.get('current')`, `info.get('total')`). -/
structure PRec where
  progress : Option ℚ
  current : Option ℤ
  total : Option ℤ
deriving DecidableEq, Repr

/-- A stored record, viewed through the aggregator's `dict.get` calls. -/
def SRec.toPRec (r : SRec) : PRec := ⟨r.progress, some r.current, r.total⟩

/-- The usable percentage extracted from one aggregator input, mirroring the
loop body of `_compute_progress_percent`: a falsy entry is skipped; an explicit
`progress` wins; otherwise `current`/`total` derive one when `current` is
present and `total` is truthy (non-`None` and nonzero). -/
def usableOf : Option PRec → Option ℚ
  | none => none
  | some info =>
    match info.progress with
    | some p => some p
    | none =>
      match info.current, info.total with
      | some c, some t => if t = 0 then none else some (round2 ((c : ℚ) / (t : ℚ) * 100))
      | _, _ => none

/-- The aggregator loop: collect usable values in iteration order. -/
def collectValues : List (Option PRec) → List ℚ
  | [] => []
  | i :: rest =>
    match usableOf i with
    | some v => v :: collectValues rest
    | none => collectValues rest

/-- Embedding of `dataUpdateHandler._compute_progress_percent` (the second,
effective definition, lines 99–123) applied to an explicit mapping. -/
def _compute_progress_percent (details : List (String × Option PRec)) : Option ℚ :=
  if details.isEmpty then none
  else
    let values := collectValues (details.map (fun p => p.2))
    if values.isEmpty then none
    else some (round2 (values.sum / (values.length : ℚ)))

/-- The usable percentage of one record, written from the specification's
words: take `progressPercent` when present, otherwise derive
`round(current/total*100, 2)` when `current` is present and `total` is known
and nonzero, otherwise skip. -/
def usableSpec (r : PRec) : Option ℚ :=
  match r.progress with
  | some p => some p
  | none =>
    match r.current, r.total with
    | some c, some t => if t ≠ 0 then some (round2 ((c : ℚ) / (t : ℚ) * 100)) else none
    | _, _ => none

/-- The aggregate written from the specification's words: `None` when no
record yields a usable value (including the empty mapping), otherwise the
unweighted arithmetic mean of the usable values rounded to 2 decimals. -/
def aggregateSpec (details : List (String × Option PRec)) : Option ℚ :=
  let us := details.filterMap (fun p => p.2.bind usableSpec)
  if us.isEmpty then none else some (round2 (us.sum / (us.length : ℚ)))

/-- Job catalog of the global-slot flavor (`dataUpdateHandler.JOB_EXECUTORS`):
update type ↦ (display name, in-progress message).  The callables themselves
are external collaborators. -/
def JOB_EXECUTORS_g : List (String × String × String) :=
  [("basic", ("基础数据更新", "正在更新基础数据...")),
   ("basic_other", ("其他基础数据更新", "正在更新其他基础数据...")),
   ("after_close", ("收盘后数据更新", "正在更新收盘后数据...")),
   ("indicators", ("技术指标计算", "正在计算技术指标...")),
   ("kline", ("K线形态识别", "正在识别K线形态...")),
   ("strategy", ("策略选股计算", "正在执行策略选股...")),
   ("selection", ("综合选股计算", "正在执行综合选股...")),
   ("backtest", ("策略回测", "正在执行策略回测...")),
   ("full", ("完整数据更新", "正在执行完整数据更新...")),
   ("complete", ("完整数据更新", "正在执行完整数据更新..."))]

/-- `dataUpdateHandler.PROGRESS_GROUPS`: update type ↦ progress-store keys. -/
def PROGRESS_GROUPS : List (String × List String) :=
  [("basic", ["stock_spot", "fund_etf"]),
   ("basic_other", []),
   ("after_close", []),
   ("indicators", []),
   ("kline", []),
   ("strategy", []),
   ("selection", []),
   ("backtest", []),
   ("full", ["stock_spot", "fund_etf"]),
   ("complete", ["stock_spot", "fund_etf"])]

/-- The global task slot `dataUpdateHandler._update_tasks`: one shared dict
whose keys are populated over time (`none` = key never written).  The stray
`cwd` bookkeeping key written at the top of `post` is carried verbatim. -/
structure GTask where
  running : Option Bool := none
  start_time : Option ℚ := none
  type : Option String := none
  progress : Option ℚ := none
  message : Option String := none
  success : Option Bool := none
  job : Option String := none
  end_time : Option ℚ := none
  progress_details : Option (List (String × SRec)) := none
  cwd : Option String := none
deriving DecidableEq, Repr

/-- The TaskState projection of the global slot: every field of the slot
except the `cwd` bookkeeping key, which is not part of the task's state. -/
structure GTaskView where
  running : Option Bool
  start_time : Option ℚ
  type : Option String
  progress : Option ℚ
  message : Option String
  success : Option Bool
  job : Option String
  end_time : Option ℚ
  progress_details : Option (List (String × SRec))
deriving DecidableEq

/-- Project the TaskState fields out of the global slot. -/
def taskStateOf (t : GTask) : GTaskView :=
  ⟨t.running, t.start_time, t.type, t.progress, t.message, t.success, t.job,
   t.end_time, t.progress_details⟩

/-- Response of the global-flavor submit (`{'success', 'message', 'task_id'}`). -/
structure GResponse where
  success : Bool
  message : String
  task_id : Option ℚ
deriving DecidableEq

/-- Embedding of `dataUpdateHandler._collect_progress`: empty for a falsy or
unmapped job key or an empty key group, else `get_many` over the group. -/
def _collect_progress (store : FileState) (job : Option String) : List (String × SRec) :=
  match job with
  | none => []
  | some jk =>
    if jk = "" then []
    else
      let keys := (alookup PROGRESS_GROUPS jk).getD []
      if keys.isEmpty then [] else ProgressTracker.get_many store keys

/-- Aggregate a `get_many` result through `_compute_progress_percent`. -/
def computeDetails (details : List (String × SRec)) : Option ℚ :=
  _compute_progress_percent (details.map (fun p => (p.1, some p.2.toPRec)))

/-- Clear every key of a progress group. -/
def clearKeys (store : FileState) (keys : List String) : FileState :=
  keys.foldl ProgressTracker.clear store

/-- Embedding of `DataUpdateHandler.post` (the submit of the global flavor),
after request-body parsing: writes the `cwd` bookkeeping key, rejects when the
slot is running, otherwise marks the slot running, resolves the update type
(falling back to `'full'` when it is not in the catalog), clears the group's
progress keys and reports acceptance.  The background launch itself is
modelled separately by `run_update`. -/
def dataUpdate_post (st : GTask) (store : FileState) (update_type : String)
    (now : ℚ) (cwd : String) : GResponse × GTask × FileState :=
  let st0 := { st with cwd := some cwd }
  if st0.running.getD false then
    (⟨false, "已有数据更新任务在执行中，请稍后再试", none⟩, st0, store)
  else
    let job_key := if (alookup JOB_EXECUTORS_g update_type).isSome then update_type else "full"
    let st1 := { st0 with
      running := some true
      start_time := some now
      type := some update_type
      progress := some 0
      message := some "任务开始执行"
      success := none
      job := some job_key }
    let store1 := clearKeys store ((alookup PROGRESS_GROUPS job_key).getD [])
    (⟨true, "数据更新任务已开始执行", some now⟩, st1, store1)

/-- Embedding of `dataUpdateHandler.run_update`'s finalization: on both the
normal and the raising outcome of the callable it recomputes progress from the
job's progress keys (falling back to 100 when the aggregate is `None`), stores
the details, sets `success`/`message`/`running`/`end_time`, and — on a
`finally`-equivalent path — clears the job's progress keys.  `outcome = some e`
embeds a callable that raised with text `e`; the exception is caught by the
surrounding `except` and never re-raised. -/
def run_update (st : GTask) (store : FileState) (job_key : String)
    (outcome : Option String) (tEnd : ℚ) : GTask × FileState :=
  let name := ((alookup JOB_EXECUTORS_g job_key).map (fun p => p.1)).getD ""
  let details := _collect_progress store (some job_key)
  let aggregated := computeDetails details
  let st1 :=
    match outcome with
    | none =>
      { st with
        progress := some (aggregated.getD 100)
        progress_details := some details
        message := some (name ++ "执行完成")
        success := some true
        running := some false
        end_time := some tEnd }
    | some e =>
      { st with
        progress := some (aggregated.getD 100)
        progress_details := some details
        message := some (name ++ "执行异常: " ++ e)
        success := some false
        running := some false
        end_time := some tEnd }
  (st1, clearKeys store ((alookup PROGRESS_GROUPS job_key).getD []))

/-- Job catalog of the keyed flavor (`jobUpdateHandler.JOB_MAPPING`), reduced
to the display names consumed by the handlers.  No entry of this catalog has
associated progress-store keys. -/
def JOB_MAPPING_names : List (String × String) :=
  [("basic_data", "基础数据更新"),
   ("basic_data_other", "其他基础数据"),
   ("basic_data_after_close", "收盘后数据"),
   ("indicators", "技术指标计算"),
   ("indicators_buy", "买入信号指标"),
   ("indicators_sell", "卖出信号指标"),
   ("kline_pattern", "K线形态识别"),
   ("strategy", "策略选股"),
   ("selection", "综合选股"),
   ("backtest", "策略回测"),
   ("complete", "完整数据更新")]

/-- `jobUpdateHandler.JOB_EXECUTORS`: job type ↦ (name, in-progress message). -/
def JOB_EXECUTORS_k : List (String × String × String) :=
  [("basic_data", ("基础数据更新", "正在更新基础数据...")),
   ("basic_data_other", ("其他基础数据", "正在更新其他基础数据...")),
   ("basic_data_after_close", ("收盘后数据", "正在更新收盘后数据...")),
   ("indicators", ("技术指标计算", "正在计算技术指标...")),
   ("indicators_buy", ("买入信号指标", "正在筛选买入信号指标...")),
   ("indicators_sell", ("卖出信号指标", "正在筛选卖出信号指标...")),
   ("kline_pattern", ("K线形态识别", "正在识别K线形态...")),
   ("strategy", ("策略选股", "正在执行策略选股...")),
   ("selection", ("综合选股", "正在执行综合选股...")),
   ("backtest", ("策略回测", "正在执行策略回测...")),
   ("complete", ("完整数据更新", "正在执行完整数据更新..."))]

/-- One entry of the keyed registry `jobUpdateHandler._update_tasks`. -/
structure KTask where
  running : Bool
  start_time : ℚ
  job_type : String
  progress : ℚ
  message : String
  executor : String
  success : Option Bool := none
  end_time : Option ℚ := none
deriving DecidableEq, Repr

/-- The keyed registry: task key ↦ task state (kept after completion). -/
abbrev KState : Type := List (String × KTask)

/-- Response of the keyed-flavor submit. -/
structure KResponse where
  success : Bool
  message : String
  task_id : Option String
deriving DecidableEq

/-- `task_key = f"{job_type}_{int(time.time())}"`. -/
def mkTaskKey (job_type : String) (now : ℚ) : String :=
  job_type ++ "_" ++ toString (qfloor now)

/-- Embedding of `JobUpdateHandler.post` (the submit of the keyed flavor),
after request-body parsing: rejects unknown or empty job types before touching
any state; rejects when any entry of the map is running; otherwise inserts a
fresh running entry under the generated task key.  The background launch is
modelled separately by `run_job`. -/
def jobUpdate_post (st : KState) (job_type : String) (now : ℚ) : KResponse × KState :=
  if job_type = "" ∨ (alookup JOB_MAPPING_names job_type).isNone then
    (⟨false, "无效的job类型: " ++ job_type, none⟩, st)
  else
    let task_key := mkTaskKey job_type now
    if st.any (fun p => p.2.running) then
      (⟨false, "已有数据更新任务在执行中，请稍后再试", none⟩, st)
    else
      match alookup JOB_EXECUTORS_k job_type with
      | none => (⟨false, "未找到 " ++ job_type ++ " 对应的执行器", none⟩, st)
      | some ex =>
        let name := (alookup JOB_MAPPING_names job_type).getD ""
        (⟨true, name ++ "任务已开始执行", some task_key⟩,
         aset st task_key ⟨true, now, job_type, 0, "任务开始执行", ex.1, none, none⟩)

/-- Embedding of `jobUpdateHandler.run_job`'s finalization: on a normal return
sets `progress=100`, a completion message, `success=true`; on a raising
callable (`outcome = some e`) the `except` block sets `progress=100`, a message
carrying the failure text, `success=false`; both outcomes set `running=false`
and `end_time`, and the exception is never re-raised.  This flavor touches no
progress-store keys (its catalog associates none). -/
def run_job (st : KState) (task_key : String) (job_type : String)
    (outcome : Option String) (tEnd : ℚ) : KState :=
  match outcome with
  | none =>
    let name := (alookup JOB_MAPPING_names job_type).getD ""
    amodify st task_key (fun t =>
      { t with progress := 100, message := name ++ "执行完成",
               success := some true, running := false, end_time := some tEnd })
  | some e =>
    let name := ((alookup JOB_EXECUTORS_k job_type).map (fun p => p.1)).getD job_type
    amodify st task_key (fun t =>
      { t with progress := 100, message := name ++ "执行异常: " ++ e,
               success := some false, running := false, end_time := some tEnd })

/-- Result of the keyed status query: a per-task snapshot, the map of running
entries, or the no-active-tasks message. -/
inductive StatusData where
  | task : Bool → ℚ → String → Option Bool → Option ℚ → Option ℚ → String → StatusData
  | active : List (String × KTask) → StatusData
  | idle : String → StatusData
deriving DecidableEq

/-- The overview branch of `JobUpdateStatusHandler.get`: the running entries
when any exist, else the no-active-tasks message. -/
def activeView (st : KState) : StatusData :=
  let a := st.filter (fun p => p.2.running)
  if a.isEmpty then StatusData.idle "无活跃任务" else StatusData.active a

/-- Embedding of `JobUpdateStatusHandler.get`: a per-task snapshot
(`running`, `progress`, `message`, `success`, `start_time`, `end_time`,
`job_type`) only when the supplied task id is truthy and present in the map;
in every other case the overview of running tasks. -/
def status_get (st : KState) (task_id : String) : StatusData :=
  if task_id = "" then activeView st
  else
    match alookup st task_id with
    | some t =>
      StatusData.task t.running t.progress t.message t.success (some t.start_time)
        t.end_time t.job_type
    | none => activeView st

/-- A schedule entry as it arrives in a request or config document
(`entry.get('cron'/'description'/'enabled')`; `none` = key absent). -/
structure RawEntry where
  cron : Option String := none
  description : Option String := none
  enabled : Option Bool := none
deriving DecidableEq, Repr

/-- A normalized schedule entry (`{'cron', 'description', 'enabled'}`). -/
structure NormEntry where
  cron : String
  description : String
  enabled : Bool
deriving DecidableEq, Repr

/-- A normalized entry written back as a dict. -/
def NormEntry.toRaw (n : NormEntry) : RawEntry :=
  ⟨some n.cron, some n.description, some n.enabled⟩

/-- A character admitted by `CRON_FIELD_PATTERN` (`[\d*/,-]`; digits embedded
as ASCII `0`–`9`). -/
def isCronChar (c : Char) : Bool :=
  c.isDigit || c = '*' || c = '/' || c = ',' || c = '-'

/-- Full match of one field against `^([\d*/,-]+)$`. -/
def cronFieldMatch (p : String) : Bool :=
  !p.data.isEmpty && p.data.all isCronChar

/-- Embedding of `configHandler._validate_cron_expression`: exactly 5
whitespace-separated fields, each matching the field pattern. -/
def _validate_cron_expression (expr : String) : Bool :=
  let parts := psplitWs expr
  parts.length = 5 && parts.all cronFieldMatch

/-- Embedding of `_merge_job_schedules.normalize`: trim `cron` and
`description`, default `enabled` to true, and raise `ValueError` when the
trimmed cron expression is non-empty yet fails validation. -/
def normalizeEntry (e : RawEntry) : Except String NormEntry :=
  let cron := pstrip (e.cron.getD "")
  let description := pstrip (e.description.getD "")
  let enabled := e.enabled.getD true
  if cron ≠ "" ∧ ¬ _validate_cron_expression cron then
    Except.error ("无效的 cron 表达式: " ++ cron)
  else Except.ok ⟨cron, description, enabled⟩

/-- `MAX_SCHEDULE_ENTRIES` from `configHandler.py`. -/
def MAX_SCHEDULE_ENTRIES : Nat := 20

/-- The merge loop of `_merge_job_schedules`: normalize each entry in order
(raising on the first invalid one), skip entries with an empty cron and
duplicates of an already-seen cron, and append the survivors. -/
def mergeAux : List RawEntry → List String → List NormEntry → Except String (List NormEntry)
  | [], _, acc => Except.ok acc
  | e :: rest, seen, acc =>
    match normalizeEntry e with
    | Except.error msg => Except.error msg
    | Except.ok n =>
      if n.cron = "" ∨ seen.contains n.cron then mergeAux rest seen acc
      else mergeAux rest (n.cron :: seen) (acc ++ [n])

/-- Embedding of `configHandler._merge_job_schedules`: walk `existing` then
`incoming`, dedup by exact equality of the normalized cron expression (first
occurrence wins), truncate to `MAX_SCHEDULE_ENTRIES`. -/
def _merge_job_schedules (existing incoming : List RawEntry) :
    Except String (List NormEntry) :=
  (mergeAux (existing ++ incoming) [] []).map (fun l => l.take MAX_SCHEDULE_ENTRIES)

/-- A section value of the configuration document: an ordinary settings dict
with opaque scalar values, or the `job_schedules` section reduced to its
single `execute_daily_job` entry list. -/
inductive SecVal where
  | plain : List (String × String) → SecVal
  | sched : List RawEntry → SecVal
deriving DecidableEq, Repr

/-- The configuration document: section name ↦ section value. -/
abbrev Doc : Type := List (String × SecVal)

/-- Python `dict.update`: apply every binding of `upd` onto `base`. -/
def dictUpdate (base upd : List (String × String)) : List (String × String) :=
  upd.foldl (fun acc p => aset acc p.1 p.2) base

/-- `configHandler.DEFAULT_CONFIG`, with scalar values carried verbatim as
strings (their content is never interpreted by the merge logic). -/
def DEFAULT_CONFIG : Doc :=
  [("proxy", SecVal.plain
      [("authKey", ""), ("password", ""), ("poolSize", "5"), ("timeout", "10"),
       ("cacheTime", "24")]),
   ("ai", SecVal.plain
      [("apiKey", ""), ("baseUrl", "https://api.openai.com/v1"),
       ("model", "gpt-3.5-turbo"), ("temperature", "0.7"), ("maxTokens", "2000")]),
   ("data_source", SecVal.plain
      [("tushareToken", ""), ("refreshInterval", "60"), ("retentionDays", "365"),
       ("maxConcurrentRequests", "5"), ("requestTimeout", "30")]),
   ("job_schedules", SecVal.sched [])]

/-- One step of `configHandler._merge_with_default`: a known section is merged
over the accumulated document (`job_schedules` through `_merge_job_schedules`,
other sections through `dict.update`); an unknown section is passed through
verbatim. -/
def mergeWithDefaultStep (acc : Doc) (p : String × SecVal) : Except String Doc :=
  match alookup acc p.1 with
  | none => Except.ok (aset acc p.1 p.2)
  | some curVal =>
    if p.1 = "job_schedules" then
      let ex := match curVal with | SecVal.sched e => e | _ => []
      let inc := match p.2 with | SecVal.sched e => e | _ => []
      (_merge_job_schedules ex inc).map
        (fun m => aset acc p.1 (SecVal.sched (m.map NormEntry.toRaw)))
    else
      match curVal, p.2 with
      | SecVal.plain base, SecVal.plain upd =>
        Except.ok (aset acc p.1 (SecVal.plain (dictUpdate base upd)))
      | _, _ => Except.ok (aset acc p.1 p.2)

/-- Embedding of `configHandler._merge_with_default`: fold the given document
over a copy of the defaults.  A `ValueError` from the schedule merge
propagates (the caller's `except` turns it into an error response). -/
def _merge_with_default (config : Doc) : Except String Doc :=
  config.foldlM mergeWithDefaultStep DEFAULT_CONFIG

/-- Embedding of `configHandler._read_config_file` on a parseable document:
the loaded document deep-merged against the defaults. -/
def _read_config_file (loaded : Doc) : Except String Doc :=
  _merge_with_default loaded

/-- Embedding of `ConfigHandler.post`: read the current (default-merged)
document, merge the submitted partial section against the defaults alone,
replace that section of the current document with the result, persist, and —
for `job_schedules` only — re-render the cron file (the returned flag).  Any
`ValueError` raised on the way yields an error response with nothing
persisted. -/
def ConfigHandler_post (loaded : Doc) (config_type : String) (config_data : SecVal) :
    Except String (Doc × Bool) :=
  if config_type = "" then Except.error "配置类型不能为空"
  else
    match _read_config_file loaded with
    | Except.error msg => Except.error msg
    | Except.ok current =>
      match _merge_with_default [(config_type, config_data)] with
      | Except.error msg => Except.error msg
      | Except.ok merged =>
        let newSec := (alookup merged config_type).getD config_data
        Except.ok (aset current config_type newSec, config_type = "job_schedules")

/-- Embedding of `SaveConfigHandler.post`: identical to `ConfigHandler.post`
except that it never re-renders the cron file. -/
def SaveConfigHandler_post (loaded : Doc) (config_type : String)
    (config_data : SecVal) : Except String (Doc × Bool) :=
  if config_type = "" then Except.error "配置类型不能为空"
  else
    match _read_config_file loaded with
    | Except.error msg => Except.error msg
    | Except.ok current =>
      match _merge_with_default [(config_type, config_data)] with
      | Except.error msg => Except.error msg
      | Except.ok merged =>
        let newSec := (alookup merged config_type).getD config_data
        Except.ok (aset current config_type newSec, false)

/-- The section write the specification describes: deep-merge the partial
section against the section of the *current* persisted document. -/
def specSectionWrite (loaded : Doc) (config_type : String)
    (config_data : List (String × String)) : Except String Doc :=
  match _read_config_file loaded with
  | Except.error msg => Except.error msg
  | Except.ok current =>
    let base := match alookup current config_type with
      | some (SecVal.plain b) => b
      | _ => []
    Except.ok (aset current config_type (SecVal.plain (dictUpdate base config_data)))

/-- Number of running entries in the keyed registry. -/
def countRunning (st : KState) : Nat := (st.filter (fun p => p.2.running)).length

/-- An entry whose trimmed cron expression is non-empty and fails the 5-field
validation — exactly the entries `normalize` rejects. -/
def invalidEntry (e : RawEntry) : Prop :=
  pstrip (e.cron.getD "") ≠ "" ∧ _validate_cron_expression (pstrip (e.cron.getD "")) = false

instance (e : RawEntry) : Decidable (invalidEntry e) := by
  unfold invalidEntry
  infer_instance

/-- The dedup walk of the merge loop on already-normalized entries, returning
the kept entries and the final seen set. -/
def dedupSeenP (seen : List String) : List NormEntry → List NormEntry × List String
  | [] => ([], seen)
  | n :: rest =>
    if n.cron = "" ∨ seen.contains n.cron then dedupSeenP seen rest
    else
      let p := dedupSeenP (n.cron :: seen) rest
      (n :: p.1, p.2)

/-- The normalized entries of a list, defined when every entry normalizes. -/
def normalizedList (l : List RawEntry) : List NormEntry :=
  l.filterMap (fun e => (normalizeEntry e).toOption)

theorem alookup_aset_self {α : Type} (l : List (String × α)) (k : String) (v : α) :
    alookup (aset l k v) k = some v := by
  induction l with
  | nil => simp [aset, alookup]
  | cons hd tl ih =>
    cases hd with
    | mk k0 v0 =>
      by_cases h : k0 = k
      · simp [aset, alookup, h]
      · simp only [aset, if_neg h, alookup]
        exact ih

theorem alookup_filter_none {α : Type} (l : List (String × α)) (q : String × α → Bool)
    (x : String) (h : alookup l x = none) : alookup (l.filter q) x = none := by
  induction l with
  | nil => simp [alookup]
  | cons hd tl ih =>
    simp only [alookup] at h
    by_cases hx : hd.1 = x
    · rw [if_pos hx] at h; exact absurd h (by simp)
    · rw [if_neg hx] at h
      rw [List.filter_cons]
      by_cases hq : q hd = true
      · rw [if_pos hq, alookup, if_neg hx]; exact ih h
      · rw [if_neg hq]; exact ih h

theorem alookup_aremove_self {α : Type} (l : List (String × α)) (k : String) :
    alookup (aremove l k) k = none := by
  unfold aremove
  induction l with
  | nil => rfl
  | cons hd tl ih =>
    rw [List.filter_cons]
    by_cases h : hd.1 = k
    · have hb : (decide (hd.1 ≠ k)) = false := by simp [h]
      rw [hb, if_neg (by simp)]
      exact ih
    · have hb : (decide (hd.1 ≠ k)) = true := by simp [h]
      rw [hb, if_pos rfl, alookup, if_neg h]
      exact ih

theorem alookup_aremove_of_none {α : Type} (l : List (String × α)) (k x : String)
    (h : alookup l x = none) : alookup (aremove l k) x = none :=
  alookup_filter_none l _ x h

theorem alookup_amodify_self {α : Type} (l : List (String × α)) (k : String) (f : α → α) :
    alookup (amodify l k f) k = (alookup l k).map f := by
  induction l with
  | nil => simp [amodify, alookup]
  | cons hd tl ih =>
    cases hd with
    | mk k0 v0 =>
      by_cases h : k0 = k
      · simp [amodify, alookup, h]
      · simp only [amodify, alookup, if_neg h]
        exact ih

theorem get_clear_self (fs : FileState) (k : String) :
    ProgressTracker.get (ProgressTracker.clear fs k) k = none := by
  cases fs with
  | missing => rfl
  | malformed =>
    simp [ProgressTracker.clear, ProgressTracker.get, ProgressTracker._read_all, alookup]
  | good d =>
    simp only [ProgressTracker.clear, ProgressTracker._read_all]
    by_cases h : (alookup d k).isSome
    · rw [if_pos h]
      simp [ProgressTracker.get, ProgressTracker._read_all, alookup_aremove_self]
    · rw [if_neg h]
      simp only [Option.isSome_iff_exists] at h
      push_neg at h
      cases hl : alookup d k with
      | none => simp [ProgressTracker.get, ProgressTracker._read_all, hl]
      | some r => exact absurd hl (h r)

theorem get_clear_of_none (fs : FileState) (k x : String)
    (h : ProgressTracker.get fs x = none) :
    ProgressTracker.get (ProgressTracker.clear fs k) x = none := by
  cases fs with
  | missing => rfl
  | malformed => simpa [ProgressTracker.clear] using h
  | good d =>
    simp only [ProgressTracker.get, ProgressTracker._read_all] at h
    simp only [ProgressTracker.clear, ProgressTracker._read_all]
    by_cases hk : (alookup d k).isSome
    · rw [if_pos hk]
      simpa [ProgressTracker.get, ProgressTracker._read_all]
        using alookup_aremove_of_none d k x h
    · rw [if_neg hk]
      simpa [ProgressTracker.get, ProgressTracker._read_all] using h

theorem get_clearKeys_of_none (keys : List String) (fs : FileState) (x : String)
    (h : ProgressTracker.get fs x = none) :
    ProgressTracker.get (clearKeys fs keys) x = none := by
  induction keys generalizing fs with
  | nil => exact h
  | cons k rest ih => exact ih _ (get_clear_of_none fs k x h)

theorem get_clearKeys_mem (keys : List String) (fs : FileState) (x : String)
    (h : x ∈ keys) : ProgressTracker.get (clearKeys fs keys) x = none := by
  induction keys generalizing fs with
  | nil => cases h
  | cons k rest ih =>
    rcases List.mem_cons.mp h with h1 | h2
    · subst h1
      exact get_clearKeys_of_none rest _ x (get_clear_self fs x)
    · exact ih (ProgressTracker.clear fs k) h2

theorem usableOf_eq_bind (o : Option PRec) : usableOf o = o.bind usableSpec := by
  cases o with
  | none => rfl
  | some r =>
    rcases r with ⟨prog, cur, tot⟩
    cases prog with
    | some p => rfl
    | none =>
      cases cur with
      | none => rfl
      | some c =>
        cases tot with
        | none => rfl
        | some t =>
          by_cases h : t = 0
          · simp [usableOf, usableSpec, Option.bind, h]
          · simp [usableOf, usableSpec, Option.bind, h]

theorem collectValues_eq (l : List (Option PRec)) :
    collectValues l = l.filterMap (fun o => o.bind usableSpec) := by
  induction l with
  | nil => rfl
  | cons a t ih =>
    rw [List.filterMap_cons, ← usableOf_eq_bind]
    cases h : usableOf a with
    | none => simp [collectValues, h, ih]
    | some v => simp [collectValues, h, ih]

/-- Claim C2: the aggregator takes each record's explicit percentage when
present, otherwise derives `round(current/total*100, 2)` when `current` is
present and `total` is known and nonzero, otherwise skips the record; when no
record yields a usable value (including the empty mapping) the aggregate is
`None` — never 0 or 100 — and otherwise it is the unweighted arithmetic mean
of the usable values rounded to 2 decimal places. -/
theorem progress_aggregation_correct (details : List (String × Option PRec)) :
    _compute_progress_percent details = aggregateSpec details := by
  have hus : details.filterMap (fun p => p.2.bind usableSpec)
      = collectValues (details.map (fun p => p.2)) := by
    rw [collectValues_eq, List.filterMap_map]
    rfl
  unfold _compute_progress_percent aggregateSpec
  by_cases hd : details.isEmpty
  · have hnil : details = [] := by
      cases details with
      | nil => rfl
      | cons a t => simp [List.isEmpty] at hd
    subst hnil
    rfl
  · rw [if_neg hd, hus]

/-- Claim C3 counterexample: the record returned by `get` after an `update`
with no `success` argument is not determined by the update's arguments alone —
with the same arguments, a prior record carrying `success=true` yields
`success=true` while an empty prior store yields no `success`; the record is
field-merged with the prior state, not overwritten wholesale. -/
theorem progress_update_not_wholesale_cex :
    (ProgressTracker.get
        (ProgressTracker.update
          (FileState.good [("k", ⟨0, some 1, "x", 0, some 0, some true⟩)])
          "k" 1 (some 2) "m" 5 none) "k").map (fun r => r.success) = some (some true) ∧
    (ProgressTracker.get
        (ProgressTracker.update FileState.missing "k" 1 (some 2) "m" 5 none)
        "k").map (fun r => r.success) = some none := by
  exact ⟨rfl, rfl⟩

/-- Claim C3 (amended): `update(k, current, total, message)` followed by
`get(k)` returns the record whose `current`, `total`, `message`, `timestamp`
and `progress` (`round(current/total*100, 2)` when `total` is present and
positive, `None` otherwise) are determined by the update's arguments, while
the `success` field is merged from the prior record under `k` (absent when
there was none); `clear(k)` followed by `get(k)` returns absence. -/
theorem progress_update_roundtrip_amended (fs : FileState) (k : String) (c : ℤ)
    (t : Option ℤ) (m : String) (ts : ℚ) :
    ProgressTracker.get (ProgressTracker.update fs k c t m ts none) k =
      some ⟨c, t, m, ts,
        (match t with
         | some v => if 0 < v then some (round2 ((c : ℚ) / (v : ℚ) * 100)) else none
         | none => none),
        (alookup (ProgressTracker._read_all fs) k).bind (fun r => r.success)⟩ ∧
    ProgressTracker.get (ProgressTracker.clear fs k) k = none := by
  refine ⟨?_, get_clear_self fs k⟩
  unfold ProgressTracker.update ProgressTracker.get
  simp [alookup_aset_self, ProgressTracker._read_all]

/-- Claim C8 counterexample: `update` does not swallow a persist failure —
with a failing disk the `OSError` of `_write_all` propagates out of the store
operation into the caller, refuting "no Progress Store operation ever raises
an exception into the job callable". -/
theorem store_write_failure_cex :
    ProgressTracker.updateE Disk.failing FileState.missing "k" 0 none "" 0 none =
      Except.error "OSError" := rfl

/-- Claim C8 (amended): read failures (missing file, malformed content)
degrade to empty-store semantics for every operation, and `get`/`get_many`
never raise; but write failures are not caught: `update` (which always
persists) propagates the disk error to its caller, while `clear` writes — and
therefore propagates the disk error — exactly when the file exists and the key
is present; on a missing file, a malformed file (degraded to an empty store)
or an absent key, `clear` performs no write and cannot raise. -/
theorem store_fault_tolerance_amended :
    (∀ k, ProgressTracker.getE FileState.malformed k = Except.ok none) ∧
    (∀ ks, ProgressTracker.get_manyE FileState.malformed ks = Except.ok []) ∧
    (∀ fs k, ∃ v, ProgressTracker.getE fs k = Except.ok v) ∧
    (∀ fs ks, ∃ v, ProgressTracker.get_manyE fs ks = Except.ok v) ∧
    (∀ d k c t m ts s, ProgressTracker.updateE d FileState.malformed k c t m ts s =
        ProgressTracker.updateE d FileState.missing k c t m ts s) ∧
    (∀ fs k c t m ts s, ProgressTracker.updateE Disk.failing fs k c t m ts s =
        Except.error "OSError") ∧
    (∀ k, ProgressTracker.clearE Disk.failing FileState.missing k =
        Except.ok FileState.missing) ∧
    (∀ d k, ProgressTracker.clearE d FileState.malformed k =
        Except.ok FileState.malformed) ∧
    (∀ (d : Disk) (l : List (String × SRec)) (k : String),
        (alookup l k).isSome = false →
        ProgressTracker.clearE d (FileState.good l) k = Except.ok (FileState.good l)) ∧
    (∀ (l : List (String × SRec)) (k : String), (alookup l k).isSome = true →
        ProgressTracker.clearE Disk.failing (FileState.good l) k =
          Except.error "OSError") := by
  refine ⟨fun k => rfl, ?_, fun fs k => ⟨_, rfl⟩, fun fs ks => ⟨_, rfl⟩,
    fun d k c t m ts s => rfl, ?_, fun k => rfl, fun d k => rfl, ?_, ?_⟩
  · intro ks
    simp [ProgressTracker.get_manyE, ProgressTracker.get_many, ProgressTracker._read_all,
      alookup]
  · intro fs k c t m ts s
    simp [ProgressTracker.updateE, ProgressTracker.update, ProgressTracker._write_all]
  · intro d l k h
    simp [ProgressTracker.clearE, ProgressTracker._read_all, h]
  · intro l k h
    simp [ProgressTracker.clearE, ProgressTracker._read_all, ProgressTracker._write_all, h]

/-- Witness for C8 (amended) at concrete inputs: `clear` on a present key with
a failing disk raises, while an absent key performs no write. -/
theorem store_fault_tolerance_amended_witness :
    ProgressTracker.clearE Disk.ok
        (FileState.good [("k", ⟨0, none, "", 0, none, none⟩)]) "x" =
      Except.ok (FileState.good [("k", ⟨0, none, "", 0, none, none⟩)]) ∧
    ProgressTracker.clearE Disk.failing
        (FileState.good [("k", ⟨0, none, "", 0, none, none⟩)]) "k" =
      Except.error "OSError" :=
  ⟨store_fault_tolerance_amended.2.2.2.2.2.2.2.2.1 Disk.ok
     [("k", ⟨0, none, "", 0, none, none⟩)] "x" (by decide),
   store_fault_tolerance_amended.2.2.2.2.2.2.2.2.2
     [("k", ⟨0, none, "", 0, none, none⟩)] "k" (by decide)⟩

/-- Claim C10: a status query whose task id is absent from the keyed registry
(including the empty id) reports no not-found error — it returns the overview
of running tasks (the running entries, or the no-active-tasks message) — and a
per-task snapshot is produced only when the supplied id is non-empty and
present in the map. -/
theorem status_query_unknown_task :
    (∀ (st : KState) (tid : String), alookup st tid = none →
        status_get st tid = activeView st) ∧
    (∀ st : KState, status_get st "" = activeView st) ∧
    (∀ (st : KState) (tid : String) (r : Bool) (p : ℚ) (m : String) (s : Option Bool)
        (t1 t2 : Option ℚ) (jt : String),
        status_get st tid = StatusData.task r p m s t1 t2 jt →
        (alookup st tid).isSome = true ∧ tid ≠ "") := by
  have hav : ∀ (st : KState) (r : Bool) (p : ℚ) (m : String) (s : Option Bool)
      (t1 t2 : Option ℚ) (jt : String),
      activeView st ≠ StatusData.task r p m s t1 t2 jt := by
    intro st r p m s t1 t2 jt
    unfold activeView
    by_cases h : (st.filter (fun p => p.2.running)).isEmpty <;> simp [h]
  refine ⟨?_, ?_, ?_⟩
  · intro st tid h
    unfold status_get
    by_cases ht : tid = ""
    · rw [if_pos ht]
    · rw [if_neg ht, h]
  · intro st
    unfold status_get
    rw [if_pos rfl]
  · intro st tid r p m s t1 t2 jt h
    unfold status_get at h
    by_cases ht : tid = ""
    · rw [if_pos ht] at h
      exact absurd h (hav st r p m s t1 t2 jt)
    · rw [if_neg ht] at h
      cases hl : alookup st tid with
      | some t => exact ⟨by simp [hl], ht⟩
      | none =>
        rw [hl] at h
        exact absurd h (hav st r p m s t1 t2 jt)

/-- Witness for C10 at concrete inputs: an id absent from an empty registry
yields the overview, and a snapshot result implies presence in the map. -/
theorem status_query_unknown_task_witness :
    status_get ([] : KState) "nope" = activeView ([] : KState) ∧
    ((alookup ([("t1", (⟨true, 0, "strategy", 0, "m", "x", none, none⟩ : KTask))] : KState)
        "t1").isSome = true ∧ "t1" ≠ "") :=
  ⟨status_query_unknown_task.1 [] "nope" rfl,
   status_query_unknown_task.2.2
     [("t1", (⟨true, 0, "strategy", 0, "m", "x", none, none⟩ : KTask))]
     "t1" true 0 "m" none (some 0) none "strategy" (by decide)⟩


theorem countRunning_aset_le (st : KState) (k : String) (v : KTask) :
    countRunning (aset st k v) ≤ countRunning st + 1 := by
  induction st with
  | nil =>
    simp only [countRunning, aset, List.filter_cons, List.filter_nil]
    cases v.running <;> simp
  | cons hd tl ih =>
    cases hd with
    | mk k0 v0 =>
      simp only [countRunning, aset] at ih ⊢
      by_cases h : k0 = k
      · rw [if_pos h]
        simp only [List.filter_cons]
        cases hv : v.running <;> cases hv0 : v0.running <;> simp [hv, hv0] <;> omega
      · rw [if_neg h]
        simp only [List.filter_cons]
        cases hv0 : v0.running <;> simp [hv0] <;> omega

theorem countRunning_amodify_le (st : KState) (k : String) (f : KTask → KTask)
    (hf : ∀ t, (f t).running = false) :
    countRunning (amodify st k f) ≤ countRunning st := by
  induction st with
  | nil => simp [amodify]
  | cons hd tl ih =>
    cases hd with
    | mk k0 v0 =>
      simp only [countRunning, amodify] at ih ⊢
      by_cases h : k0 = k
      · rw [if_pos h]
        simp only [List.filter_cons, hf v0]
        cases hv0 : v0.running <;> simp [hv0] <;> omega
      · rw [if_neg h]
        simp only [List.filter_cons]
        cases hv0 : v0.running <;> simp [hv0] <;> omega

theorem countRunning_eq_zero_of_any_false (st : KState)
    (h : st.any (fun p => p.2.running) = false) : countRunning st = 0 := by
  induction st with
  | nil => rfl
  | cons hd tl ih =>
    simp only [List.any_cons, Bool.or_eq_false_iff] at h
    simp only [countRunning, List.filter_cons, h.1]
    exact ih h.2

/-- Claim C1: single-flight admission.  Global flavor: while the slot is
running, every submit is rejected with the already-running message, and the
TaskState of the in-flight job (every slot field except the stray `cwd`
bookkeeping key) and the progress store are unchanged.  Keyed flavor: while
any entry is running, every submit leaves the registry fully unchanged and is
never accepted, with the already-running reason whenever the job id is valid;
moreover both the submit and the finalization transitions preserve the
invariant that at most one entry is running (the global flavor has a single
slot, so its invariant is structural). -/
theorem single_flight_admission :
    (∀ (st : GTask) (store : FileState) (ut : String) (now : ℚ) (cwd : String),
        st.running = some true →
        (dataUpdate_post st store ut now cwd).1.success = false ∧
        (dataUpdate_post st store ut now cwd).1.message =
          "已有数据更新任务在执行中，请稍后再试" ∧
        taskStateOf (dataUpdate_post st store ut now cwd).2.1 = taskStateOf st ∧
        (dataUpdate_post st store ut now cwd).2.2 = store) ∧
    (∀ (st : KState) (jt : String) (now : ℚ),
        (∃ p ∈ st, p.2.running = true) →
        (jobUpdate_post st jt now).1.success = false ∧
        (jobUpdate_post st jt now).2 = st) ∧
    (∀ (st : KState) (jt : String) (now : ℚ),
        (∃ p ∈ st, p.2.running = true) →
        jt ≠ "" → (alookup JOB_MAPPING_names jt).isSome = true →
        (jobUpdate_post st jt now).1.message =
          "已有数据更新任务在执行中，请稍后再试") ∧
    (∀ (st : KState) (jt : String) (now : ℚ),
        countRunning st ≤ 1 → countRunning (jobUpdate_post st jt now).2 ≤ 1) ∧
    (∀ (st : KState) (tk jt : String) (outcome : Option String) (tEnd : ℚ),
        countRunning st ≤ 1 → countRunning (run_job st tk jt outcome tEnd) ≤ 1) := by
  have hany : ∀ (st : KState), (∃ p ∈ st, p.2.running = true) →
      st.any (fun p => p.2.running) = true := by
    intro st ⟨p, hp, hr⟩
    exact List.any_eq_true.mpr ⟨p, hp, hr⟩
  refine ⟨?_, ?_, ?_, ?_, ?_⟩
  · intro st store ut now cwd h
    simp [dataUpdate_post, h, taskStateOf]
  · intro st jt now h
    unfold jobUpdate_post
    by_cases hval : jt = "" ∨ (alookup JOB_MAPPING_names jt).isNone = true
    · rw [if_pos hval]
      exact ⟨rfl, rfl⟩
    · rw [if_neg hval, if_pos (hany st h)]
      exact ⟨rfl, rfl⟩
  · intro st jt now h h1 h2
    unfold jobUpdate_post
    have hval : ¬(jt = "" ∨ (alookup JOB_MAPPING_names jt).isNone = true) := by
      rintro (h3 | h3)
      · exact h1 h3
      · rw [Option.isNone_iff_eq_none] at h3
        rw [h3] at h2
        simp at h2
    rw [if_neg hval, if_pos (hany st h)]
  · intro st jt now h
    unfold jobUpdate_post
    by_cases hval : jt = "" ∨ (alookup JOB_MAPPING_names jt).isNone = true
    · rw [if_pos hval]; exact h
    · rw [if_neg hval]
      by_cases hrun : st.any (fun p => p.2.running) = true
      · rw [if_pos hrun]; exact h
      · rw [if_neg hrun]
        have h0 : countRunning st = 0 :=
          countRunning_eq_zero_of_any_false st (by simpa using hrun)
        cases hex : alookup JOB_EXECUTORS_k jt with
        | none => exact h
        | some ex =>
          calc countRunning (aset st (mkTaskKey jt now)
                ⟨true, now, jt, 0, "任务开始执行", ex.1, none, none⟩)
              ≤ countRunning st + 1 := countRunning_aset_le st _ _
            _ ≤ 1 := by omega
  · intro st tk jt outcome tEnd h
    unfold run_job
    cases outcome with
    | none =>
      exact le_trans (countRunning_amodify_le st tk _ (fun t => rfl)) h
    | some e =>
      exact le_trans (countRunning_amodify_le st tk _ (fun t => rfl)) h

/-- Witness for C1 at concrete inputs: each hypothesis of
`single_flight_admission` discharged on an explicit running registry. -/
theorem single_flight_admission_witness :
    taskStateOf (dataUpdate_post { running := some true } FileState.missing
        "full" 0 "/app").2.1 = taskStateOf { running := some true } ∧
    (jobUpdate_post ([("t1", (⟨true, 0, "strategy", 50, "m", "x", none, none⟩ : KTask))] :
        KState) "strategy" 0).2 =
      ([("t1", (⟨true, 0, "strategy", 50, "m", "x", none, none⟩ : KTask))] : KState) ∧
    (jobUpdate_post ([("t1", (⟨true, 0, "strategy", 50, "m", "x", none, none⟩ : KTask))] :
        KState) "strategy" 0).1.message = "已有数据更新任务在执行中，请稍后再试" ∧
    countRunning (jobUpdate_post ([] : KState) "strategy" 7).2 ≤ 1 ∧
    countRunning (run_job ([("t1", (⟨true, 0, "strategy", 50, "m", "x", none, none⟩ : KTask))] :
        KState) "t1" "strategy" none 9) ≤ 1 :=
  ⟨(single_flight_admission.1 { running := some true } FileState.missing "full" 0 "/app"
      rfl).2.2.1,
   (single_flight_admission.2.1 _ "strategy" 0
      ⟨("t1", ⟨true, 0, "strategy", 50, "m", "x", none, none⟩), by decide, rfl⟩).2,
   single_flight_admission.2.2.1 _ "strategy" 0
      ⟨("t1", ⟨true, 0, "strategy", 50, "m", "x", none, none⟩), by decide, rfl⟩
      (by decide) (by decide),
   single_flight_admission.2.2.2.1 [] "strategy" 7 (by decide),
   single_flight_admission.2.2.2.2 _ "t1" "strategy" none 9 (by decide)⟩

/-- Claim C7 counterexample: in the global flavor an update type absent from
the job catalog is not reported as an error — the submission is accepted, the
slot is mutated to running, and the job silently falls back to `'full'`. -/
theorem unknown_job_fallback_cex :
    (dataUpdate_post {} FileState.missing "does_not_exist" 0 "/app").1.success = true ∧
    (dataUpdate_post {} FileState.missing "does_not_exist" 0 "/app").2.1.running =
      some true ∧
    (dataUpdate_post {} FileState.missing "does_not_exist" 0 "/app").2.1.job =
      some "full" := by
  exact ⟨rfl, rfl, rfl⟩

/-- Claim C7 (amended): only the keyed flavor rejects unknown job identifiers
(as an error, before any state mutation); the global flavor never rejects an
unknown update type — it resolves it to the `'full'` job and, when the slot is
idle, admits it normally. -/
theorem unknown_job_rejection_amended :
    (∀ (st : KState) (jt : String) (now : ℚ),
        (alookup JOB_MAPPING_names jt).isNone = true →
        (jobUpdate_post st jt now).1.success = false ∧
        (jobUpdate_post st jt now).1.message = "无效的job类型: " ++ jt ∧
        (jobUpdate_post st jt now).2 = st) ∧
    (∀ (st : GTask) (store : FileState) (ut : String) (now : ℚ) (cwd : String),
        (alookup JOB_EXECUTORS_g ut).isNone = true →
        st.running.getD false = false →
        (dataUpdate_post st store ut now cwd).1.success = true ∧
        (dataUpdate_post st store ut now cwd).2.1.job = some "full" ∧
        (dataUpdate_post st store ut now cwd).2.1.running = some true) := by
  constructor
  · intro st jt now h
    unfold jobUpdate_post
    rw [if_pos (Or.inr h)]
    exact ⟨rfl, rfl, rfl⟩
  · intro st store ut now cwd h1 h2
    have hkey : (if (alookup JOB_EXECUTORS_g ut).isSome then ut else "full") = "full" := by
      rw [Option.isNone_iff_eq_none] at h1
      simp [h1]
    unfold dataUpdate_post
    simp only [h2]
    rw [if_neg (by simp [h2])]
    simp [hkey]

/-- Witness for C7 (amended) at concrete inputs. -/
theorem unknown_job_rejection_amended_witness :
    (jobUpdate_post ([] : KState) "nope" 0).2 = ([] : KState) ∧
    (dataUpdate_post {} FileState.missing "nope" 0 "/app").2.1.job = some "full" :=
  ⟨(unknown_job_rejection_amended.1 [] "nope" 0 (by decide)).2.2,
   (unknown_job_rejection_amended.2 {} FileState.missing "nope" 0 "/app"
      (by decide) rfl).2.1⟩

/-- Claim C4: callable-fault finalization.  Global flavor: when the callable
raises with text `e`, the final slot has `success=false`, `running=false`,
`end_time` set and a message carrying `e`; the store effect and the computed
progress and details are identical to the success path; the progress is the
aggregate over the job's keys with fallback 100 when the aggregate is `None`;
and every key of the job's progress group reads as absent afterwards (cleared
on the `finally`-equivalent path of both outcomes).  Keyed flavor: the faulted
task's terminal entry has `success=false`, `running=false`, `end_time` set, a
message carrying `e`, and progress equal to the aggregate of this flavor's
(empty) progress-key set with fallback 100; neither outcome touches the store.
Both finalizations are total functions of the outcome: the fault is swallowed,
never re-raised. -/
theorem callable_fault_finalization :
    (∀ (st : GTask) (store : FileState) (jk e : String) (tEnd : ℚ),
        (run_update st store jk (some e) tEnd).1.success = some false ∧
        (run_update st store jk (some e) tEnd).1.running = some false ∧
        (run_update st store jk (some e) tEnd).1.end_time = some tEnd ∧
        (∃ pre, (run_update st store jk (some e) tEnd).1.message = some (pre ++ e)) ∧
        (run_update st store jk (some e) tEnd).2 = (run_update st store jk none tEnd).2 ∧
        (run_update st store jk (some e) tEnd).1.progress =
          (run_update st store jk none tEnd).1.progress ∧
        (run_update st store jk (some e) tEnd).1.progress_details =
          (run_update st store jk none tEnd).1.progress_details ∧
        (run_update st store jk (some e) tEnd).1.progress =
          some ((computeDetails (_collect_progress store (some jk))).getD 100) ∧
        (∀ x ∈ (alookup PROGRESS_GROUPS jk).getD [],
          ProgressTracker.get (run_update st store jk (some e) tEnd).2 x = none)) ∧
    (∀ (st : KState) (tk jt e : String) (tEnd : ℚ) (t : KTask),
        alookup st tk = some t →
        ∃ t2, alookup (run_job st tk jt (some e) tEnd) tk = some t2 ∧
          t2.success = some false ∧ t2.running = false ∧ t2.end_time = some tEnd ∧
          (∃ pre, t2.message = pre ++ e) ∧
          t2.progress = (computeDetails []).getD 100) := by
  constructor
  · intro st store jk e tEnd
    refine ⟨rfl, rfl, rfl, ⟨_, rfl⟩, rfl, rfl, rfl, rfl, ?_⟩
    intro x hx
    exact get_clearKeys_mem _ store x hx
  · intro st tk jt e tEnd t h
    unfold run_job
    rw [alookup_amodify_self, h]
    exact ⟨_, rfl, rfl, rfl, rfl, ⟨_, rfl⟩, rfl⟩

/-- Witness for C4 at concrete inputs: the faulted finalizations evaluated on
an explicit store and registry, the cleared-key conclusion instantiated at
`stock_spot` of the `'full'` group. -/
theorem callable_fault_finalization_witness :
    (run_update {} (FileState.good [("stock_spot",
        ⟨50, some 200, "fetching", 0, some 25, none⟩)]) "full" (some "boom") 3).1.success =
      some false ∧
    ProgressTracker.get
      (run_update {} (FileState.good [("stock_spot",
        ⟨50, some 200, "fetching", 0, some 25, none⟩)]) "full" (some "boom") 3).2
      "stock_spot" = none ∧
    (∃ t2, alookup (run_job ([("t1", (⟨true, 0, "strategy", 50, "m", "x", none, none⟩ :
        KTask))] : KState) "t1" "strategy" (some "boom") 9) "t1" = some t2 ∧
      t2.success = some false ∧ t2.running = false ∧ t2.end_time = some 9 ∧
      (∃ pre, t2.message = pre ++ "boom") ∧
      t2.progress = (computeDetails []).getD 100) :=
  ⟨(callable_fault_finalization.1 {} _ "full" "boom" 3).1,
   (callable_fault_finalization.1 {} _ "full" "boom" 3).2.2.2.2.2.2.2.2 "stock_spot"
     (by decide),
   callable_fault_finalization.2 _ "t1" "strategy" "boom" 9
     ⟨true, 0, "strategy", 50, "m", "x", none, none⟩ (by decide)⟩

theorem merge_with_default_single (ct : String) (cd : SecVal) :
    _merge_with_default [(ct, cd)] = mergeWithDefaultStep DEFAULT_CONFIG (ct, cd) := by
  unfold _merge_with_default
  cases h : mergeWithDefaultStep DEFAULT_CONFIG (ct, cd) <;> simp [List.foldlM, h]

/-- Claim C9 counterexample: writing the partial document `{timeout: 99}` to
the `proxy` section does not retain the previously saved `authKey = "X"` that
the partial write omitted — the code resets it to the built-in default `""`,
whereas the deep-merge against the current document that the claim describes
(`specSectionWrite`) would retain `"X"`. -/
theorem config_write_not_merged_cex :
    (match ConfigHandler_post [("proxy", SecVal.plain [("authKey", "X")])] "proxy"
        (SecVal.plain [("timeout", "99")]) with
     | Except.ok (doc, _) =>
       (match alookup doc "proxy" with
        | some (SecVal.plain f) => alookup f "authKey"
        | _ => none)
     | Except.error _ => none) = some "" ∧
    (match specSectionWrite [("proxy", SecVal.plain [("authKey", "X")])] "proxy"
        [("timeout", "99")] with
     | Except.ok doc =>
       (match alookup doc "proxy" with
        | some (SecVal.plain f) => alookup f "authKey"
        | _ => none)
     | Except.error _ => none) = some "X" := by
  exact ⟨rfl, rfl⟩

/-- Claim C9 (amended): the section write deep-merges the submitted partial
section against the built-in defaults — not against the current persisted
document — and replaces that section of the current document with the result,
so omitted fields revert to their defaults; the whole document is re-persisted;
and only `ConfigHandler` re-renders the schedule file when the written section
is `job_schedules` (`SaveConfigHandler` never does). -/
theorem config_section_write_amended :
    (∀ (loaded : Doc) (ct : String) (cd : List (String × String)) (current : Doc)
        (dflt : List (String × String)),
        _read_config_file loaded = Except.ok current →
        alookup DEFAULT_CONFIG ct = some (SecVal.plain dflt) →
        ct ≠ "job_schedules" → ct ≠ "" →
        ConfigHandler_post loaded ct (SecVal.plain cd) =
          Except.ok (aset current ct (SecVal.plain (dictUpdate dflt cd)), false) ∧
        SaveConfigHandler_post loaded ct (SecVal.plain cd) =
          Except.ok (aset current ct (SecVal.plain (dictUpdate dflt cd)), false)) ∧
    (∀ (loaded : Doc) (inc : List RawEntry) (current : Doc) (M : List NormEntry),
        _read_config_file loaded = Except.ok current →
        _merge_job_schedules [] inc = Except.ok M →
        ConfigHandler_post loaded "job_schedules" (SecVal.sched inc) =
          Except.ok (aset current "job_schedules"
            (SecVal.sched (M.map NormEntry.toRaw)), true) ∧
        SaveConfigHandler_post loaded "job_schedules" (SecVal.sched inc) =
          Except.ok (aset current "job_schedules"
            (SecVal.sched (M.map NormEntry.toRaw)), false)) := by
  constructor
  · intro loaded ct cd current dflt hread hdef hjs hne
    have hstep : mergeWithDefaultStep DEFAULT_CONFIG (ct, SecVal.plain cd) =
        Except.ok (aset DEFAULT_CONFIG ct (SecVal.plain (dictUpdate dflt cd))) := by
      unfold mergeWithDefaultStep
      rw [hdef]
      simp only [if_neg hjs]
    have hmerged : _merge_with_default [(ct, SecVal.plain cd)] =
        Except.ok (aset DEFAULT_CONFIG ct (SecVal.plain (dictUpdate dflt cd))) := by
      rw [merge_with_default_single, hstep]
    constructor
    · unfold ConfigHandler_post
      rw [if_neg hne, hread, hmerged]
      simp [alookup_aset_self, hjs]
    · unfold SaveConfigHandler_post
      rw [if_neg hne, hread, hmerged]
      simp [alookup_aset_self]
  · intro loaded inc current M hread hmerge
    have hstep : mergeWithDefaultStep DEFAULT_CONFIG ("job_schedules", SecVal.sched inc) =
        Except.ok (aset DEFAULT_CONFIG "job_schedules"
          (SecVal.sched (M.map NormEntry.toRaw))) := by
      unfold mergeWithDefaultStep
      have hdef : alookup DEFAULT_CONFIG "job_schedules" = some (SecVal.sched []) := rfl
      rw [hdef]
      simp only [if_pos rfl]
      rw [hmerge]
      rfl
    have hmerged : _merge_with_default [("job_schedules", SecVal.sched inc)] =
        Except.ok (aset DEFAULT_CONFIG "job_schedules"
          (SecVal.sched (M.map NormEntry.toRaw))) := by
      rw [merge_with_default_single, hstep]
    constructor
    · unfold ConfigHandler_post
      rw [if_neg (by decide), hread, hmerged]
      simp [alookup_aset_self]
    · unfold SaveConfigHandler_post
      rw [if_neg (by decide), hread, hmerged]
      simp [alookup_aset_self]

/-- Witness for C9 (amended) at concrete inputs. -/
theorem config_section_write_amended_witness :
    ConfigHandler_post ([] : Doc) "proxy" (SecVal.plain [("timeout", "99")]) =
      Except.ok (aset DEFAULT_CONFIG "proxy"
        (SecVal.plain (dictUpdate
          [("authKey", ""), ("password", ""), ("poolSize", "5"), ("timeout", "10"),
           ("cacheTime", "24")] [("timeout", "99")])), false) ∧
    ConfigHandler_post ([] : Doc) "job_schedules" (SecVal.sched []) =
      Except.ok (aset DEFAULT_CONFIG "job_schedules" (SecVal.sched []), true) :=
  ⟨(config_section_write_amended.1 [] "proxy" [("timeout", "99")] DEFAULT_CONFIG
      [("authKey", ""), ("password", ""), ("poolSize", "5"), ("timeout", "10"),
       ("cacheTime", "24")] rfl rfl (by decide) (by decide)).1,
   (config_section_write_amended.2 [] [] DEFAULT_CONFIG [] rfl rfl).1⟩


theorem normalizeEntry_error_iff (e : RawEntry) :
    (∃ msg, normalizeEntry e = Except.error msg) ↔ invalidEntry e := by
  unfold normalizeEntry invalidEntry
  by_cases h : pstrip (e.cron.getD "") ≠ "" ∧
      ¬ _validate_cron_expression (pstrip (e.cron.getD "")) = true
  · rw [if_pos h]
    constructor
    · intro _
      exact ⟨h.1, by simpa using h.2⟩
    · intro _
      exact ⟨_, rfl⟩
  · rw [if_neg h]
    constructor
    · rintro ⟨msg, hm⟩
      exact absurd hm (by simp)
    · intro hi
      exact absurd ⟨hi.1, by simp [hi.2]⟩ h

theorem mergeAux_error_iff (l : List RawEntry) :
    ∀ (seen : List String) (acc : List NormEntry),
    (∃ msg, mergeAux l seen acc = Except.error msg) ↔ ∃ e ∈ l, invalidEntry e := by
  induction l with
  | nil =>
    intro seen acc
    simp [mergeAux]
  | cons e rest ih =>
    intro seen acc
    constructor
    · rintro ⟨msg, hm⟩
      cases hne : normalizeEntry e with
      | error m2 =>
        exact ⟨e, List.mem_cons_self e rest, (normalizeEntry_error_iff e).mp ⟨m2, hne⟩⟩
      | ok n =>
        simp only [mergeAux, hne] at hm
        by_cases hskip : n.cron = "" ∨ seen.contains n.cron
        · rw [if_pos hskip] at hm
          obtain ⟨e2, he2, hi⟩ := (ih seen acc).mp ⟨msg, hm⟩
          exact ⟨e2, List.mem_cons_of_mem e he2, hi⟩
        · rw [if_neg hskip] at hm
          obtain ⟨e2, he2, hi⟩ := (ih (n.cron :: seen) (acc ++ [n])).mp ⟨msg, hm⟩
          exact ⟨e2, List.mem_cons_of_mem e he2, hi⟩
    · rintro ⟨e2, he2, hi⟩
      rcases List.mem_cons.mp he2 with rfl | hmem
      · obtain ⟨m2, hm2⟩ := (normalizeEntry_error_iff e2).mpr hi
        refine ⟨m2, ?_⟩
        simp only [mergeAux, hm2]
      · cases hne : normalizeEntry e with
        | error m2 =>
          refine ⟨m2, ?_⟩
          simp only [mergeAux, hne]
        | ok n =>
          by_cases hskip : n.cron = "" ∨ seen.contains n.cron
          · obtain ⟨msg, hm⟩ := (ih seen acc).mpr ⟨e2, hmem, hi⟩
            refine ⟨msg, ?_⟩
            simp only [mergeAux, hne, if_pos hskip]
            exact hm
          · obtain ⟨msg, hm⟩ := (ih (n.cron :: seen) (acc ++ [n])).mpr ⟨e2, hmem, hi⟩
            refine ⟨msg, ?_⟩
            simp only [mergeAux, hne, if_neg hskip]
            exact hm

theorem merge_error_iff (ex inc : List RawEntry) :
    (∃ msg, _merge_job_schedules ex inc = Except.error msg) ↔
      ∃ e ∈ ex ++ inc, invalidEntry e := by
  rw [← mergeAux_error_iff (ex ++ inc) [] []]
  unfold _merge_job_schedules
  cases h : mergeAux (ex ++ inc) [] [] with
  | error m => simp [h, Except.map]
  | ok L => simp [h, Except.map]

theorem mergeAux_ok_nonempty (l : List RawEntry) :
    ∀ (seen : List String) (acc M : List NormEntry),
    mergeAux l seen acc = Except.ok M →
    (∀ n ∈ acc, n.cron ≠ "") → ∀ n ∈ M, n.cron ≠ "" := by
  induction l with
  | nil =>
    intro seen acc M hm hacc
    simp only [mergeAux, Except.ok.injEq] at hm
    subst hm
    exact hacc
  | cons e rest ih =>
    intro seen acc M hm hacc
    cases hne : normalizeEntry e with
    | error m2 => simp [mergeAux, hne] at hm
    | ok n =>
      simp only [mergeAux, hne] at hm
      by_cases hskip : n.cron = "" ∨ seen.contains n.cron
      · rw [if_pos hskip] at hm
        exact ih seen acc M hm hacc
      · rw [if_neg hskip] at hm
        refine ih (n.cron :: seen) (acc ++ [n]) M hm ?_
        intro m hmem
        rcases List.mem_append.mp hmem with h1 | h1
        · exact hacc m h1
        · rcases List.mem_singleton.mp h1 with rfl
          intro hc
          exact hskip (Or.inl hc)

theorem merge_ok_nonempty (ex inc : List RawEntry) (M : List NormEntry)
    (hm : _merge_job_schedules ex inc = Except.ok M) : ∀ n ∈ M, n.cron ≠ "" := by
  unfold _merge_job_schedules at hm
  cases h : mergeAux (ex ++ inc) [] [] with
  | error m => rw [h] at hm; simp [Except.map] at hm
  | ok L =>
    rw [h] at hm
    simp only [Except.map, Except.ok.injEq] at hm
    subst hm
    intro n hn
    exact mergeAux_ok_nonempty (ex ++ inc) [] [] L h (by simp) n (List.mem_of_mem_take hn)

/-- Claim C5: the schedule merge fails with the invalid-cron error exactly
when some entry of either input has a trimmed cron expression that is
non-empty and is not 5 whitespace-separated fields over `[0-9*/,-]`; entries
with an empty trimmed cron are skipped (they never fail and never appear in
the output); and on failure the section write fails atomically — the handler
returns an error and persists nothing. -/
theorem cron_merge_validation :
    (∀ (ex inc : List RawEntry),
        (∃ msg, _merge_job_schedules ex inc = Except.error msg) ↔
          ∃ e ∈ ex ++ inc, invalidEntry e) ∧
    (∀ (ex inc : List RawEntry) (M : List NormEntry),
        _merge_job_schedules ex inc = Except.ok M → ∀ n ∈ M, n.cron ≠ "") ∧
    (∀ (loaded : Doc) (inc : List RawEntry) (current : Doc),
        _read_config_file loaded = Except.ok current →
        (∃ e ∈ inc, invalidEntry e) →
        ∃ msg, ConfigHandler_post loaded "job_schedules" (SecVal.sched inc) =
          Except.error msg) := by
  refine ⟨merge_error_iff, merge_ok_nonempty, ?_⟩
  intro loaded inc current hread hbad
  obtain ⟨msg, hmerge⟩ := (merge_error_iff [] inc).mpr (by simpa using hbad)
  have hstep : mergeWithDefaultStep DEFAULT_CONFIG ("job_schedules", SecVal.sched inc) =
      Except.error msg := by
    unfold mergeWithDefaultStep
    have hdef : alookup DEFAULT_CONFIG "job_schedules" = some (SecVal.sched []) := rfl
    rw [hdef]
    simp only [if_pos rfl]
    rw [hmerge]
    rfl
  refine ⟨msg, ?_⟩
  unfold ConfigHandler_post
  rw [if_neg (by decide), hread, merge_with_default_single, hstep]

/-- Witness for C5 at concrete inputs: a malformed cron expression makes the
merge and the section write fail, and a valid merge output has no empty cron. -/
theorem cron_merge_validation_witness :
    (∃ msg, _merge_job_schedules []
        [({ cron := some "not five fields" } : RawEntry)] = Except.error msg) ∧
    (∀ n ∈ [({ cron := "0 9 * * 1-5", description := "daily", enabled := true } :
        NormEntry)], n.cron ≠ "") ∧
    (∃ msg, ConfigHandler_post ([] : Doc) "job_schedules"
        (SecVal.sched [({ cron := some "not five fields" } : RawEntry)]) =
      Except.error msg) :=
  ⟨(cron_merge_validation.1 [] [{ cron := some "not five fields" }]).mpr
     ⟨{ cron := some "not five fields" }, by decide, by decide⟩,
   cron_merge_validation.2.1 []
     [({ cron := some "0 9 * * 1-5", description := some "daily" } : RawEntry)] _
     rfl,
   cron_merge_validation.2.2 [] [{ cron := some "not five fields" }] DEFAULT_CONFIG rfl
     ⟨{ cron := some "not five fields" }, by decide, by decide⟩⟩
theorem dropWhile_length_le (p : Char → Bool) (l : List Char) :
    (l.dropWhile p).length ≤ l.length := by
  induction l with
  | nil => simp
  | cons c rest ih =>
    rw [List.dropWhile_cons]
    by_cases h : p c = true
    · rw [if_pos h]; exact le_trans ih (by simp)
    · rw [if_neg h]

theorem dropWhile_dropWhile (p : Char → Bool) (l : List Char) :
    (l.dropWhile p).dropWhile p = l.dropWhile p := by
  induction l with
  | nil => rfl
  | cons c rest ih =>
    rw [List.dropWhile_cons]
    by_cases h : p c = true
    · rw [if_pos h]; exact ih
    · rw [if_neg h, List.dropWhile_cons, if_neg h]
theorem dropTrailingWs_cons (c : Char) (rest : List Char) :
    dropTrailingWs (c :: rest) =
      if (dropTrailingWs rest).isEmpty && isPyWs c then [] else c :: dropTrailingWs rest := rfl

theorem dropTrailingWs_idem (l : List Char) :
    dropTrailingWs (dropTrailingWs l) = dropTrailingWs l := by
  induction l with
  | nil => rfl
  | cons c rest ih =>
    rw [dropTrailingWs_cons]
    cases hrl : dropTrailingWs rest with
    | nil =>
      by_cases hc : isPyWs c = true
      · simp [hc, hrl, dropTrailingWs]
      · simp [hc, hrl, dropTrailingWs]
    | cons x xs =>
      rw [hrl] at ih
      have hne : (x :: xs).isEmpty = false := rfl
      rw [hne, Bool.false_and, if_neg (by simp), dropTrailingWs_cons, ih, hne,
        Bool.false_and, if_neg (by simp)]

theorem dropWhile_dropTrailing (l : List Char) (h : l.dropWhile isPyWs = l) :
    (dropTrailingWs l).dropWhile isPyWs = dropTrailingWs l := by
  cases l with
  | nil => rfl
  | cons c rest =>
    have hc : isPyWs c = false := by
      cases hb : isPyWs c
      · rfl
      · rw [List.dropWhile_cons, if_pos hb] at h
        have hlen := congrArg List.length h
        have hle := dropWhile_length_le isPyWs rest
        simp at hlen
        omega
    rw [dropTrailingWs_cons, hc, Bool.and_false, if_neg (by simp), List.dropWhile_cons,
      hc, if_neg (by simp)]

theorem stripList_idem (l : List Char) : stripList (stripList l) = stripList l := by
  unfold stripList
  rw [dropWhile_dropTrailing _ (dropWhile_dropWhile isPyWs l), dropTrailingWs_idem]

theorem pstrip_idem (s : String) : pstrip (pstrip s) = pstrip s := by
  show String.mk (stripList (String.mk (stripList s.data)).data) = String.mk (stripList s.data)
  rw [show (String.mk (stripList s.data)).data = stripList s.data from rfl, stripList_idem]


theorem dedupSeenP_cons (seen : List String) (n : NormEntry) (rest : List NormEntry) :
    dedupSeenP seen (n :: rest) =
      if n.cron = "" ∨ seen.contains n.cron then dedupSeenP seen rest
      else ((n :: (dedupSeenP (n.cron :: seen) rest).1),
            (dedupSeenP (n.cron :: seen) rest).2) := rfl


theorem dedup_append (xs : List NormEntry) :
    ∀ (ys : List NormEntry) (seen : List String),
    dedupSeenP seen (xs ++ ys) =
      ((dedupSeenP seen xs).1 ++ (dedupSeenP (dedupSeenP seen xs).2 ys).1,
       (dedupSeenP (dedupSeenP seen xs).2 ys).2) := by
  induction xs with
  | nil => intro ys seen; simp [dedupSeenP]
  | cons n rest ih =>
    intro ys seen
    rw [List.cons_append, dedupSeenP_cons, dedupSeenP_cons]
    by_cases h : n.cron = "" ∨ seen.contains n.cron
    · rw [if_pos h, if_pos h, ih ys seen]
    · rw [if_neg h, if_neg h, ih ys (n.cron :: seen)]
      rfl

theorem dedup_sound (L : List NormEntry) :
    ∀ seen : List String,
    (∀ n ∈ (dedupSeenP seen L).1, n.cron ≠ "" ∧ seen.contains n.cron = false) ∧
    (dedupSeenP seen L).1.Pairwise (fun a b => a.cron ≠ b.cron) := by
  induction L with
  | nil => intro seen; simp [dedupSeenP]
  | cons n rest ih =>
    intro seen
    rw [dedupSeenP_cons]
    by_cases h : n.cron = "" ∨ seen.contains n.cron
    · rw [if_pos h]
      exact ih seen
    · rw [if_neg h]
      have hcron : n.cron ≠ "" := fun hh => h (Or.inl hh)
      have hcontains : seen.contains n.cron = false := by
        cases hb : seen.contains n.cron
        · rfl
        · exact absurd (Or.inr hb) h
      constructor
      · intro m hm
        rcases List.mem_cons.mp hm with rfl | hm2
        · exact ⟨hcron, hcontains⟩
        · have h1 := (ih (n.cron :: seen)).1 m hm2
          refine ⟨h1.1, ?_⟩
          have h2 := h1.2
          rw [List.contains_cons] at h2
          exact (Bool.or_eq_false_iff.mp h2).2
      · rw [List.pairwise_cons]
        refine ⟨?_, (ih (n.cron :: seen)).2⟩
        intro m hm2
        have h1 := (ih (n.cron :: seen)).1 m hm2
        have h2 := h1.2
        rw [List.contains_cons] at h2
        have h3 := (Bool.or_eq_false_iff.mp h2).1
        intro hEq
        rw [hEq] at h3
        simp at h3

theorem dedup_fix (M : List NormEntry) :
    ∀ seen : List String,
    (∀ n ∈ M, n.cron ≠ "" ∧ seen.contains n.cron = false) →
    M.Pairwise (fun a b => a.cron ≠ b.cron) →
    (dedupSeenP seen M).1 = M := by
  induction M with
  | nil => intro seen _ _; rfl
  | cons n rest ih =>
    intro seen hmem hpw
    have hn := hmem n (List.mem_cons_self n rest)
    rw [dedupSeenP_cons, if_neg (by
      rintro (h1 | h1)
      · exact hn.1 h1
      · rw [hn.2] at h1; cases h1)]
    rw [List.pairwise_cons] at hpw
    have hrest : (dedupSeenP (n.cron :: seen) rest).1 = rest := by
      refine ih (n.cron :: seen) ?_ hpw.2
      intro m hm
      have h1 := hmem m (List.mem_cons_of_mem n hm)
      refine ⟨h1.1, ?_⟩
      rw [List.contains_cons, Bool.or_eq_false_iff]
      refine ⟨?_, h1.2⟩
      have hne := hpw.1 m hm
      rw [beq_eq_false_iff_ne]
      exact fun hEq => hne hEq.symm
    rw [hrest]

theorem dedup_cover (L : List NormEntry) :
    ∀ (seen : List String) (n : NormEntry), n ∈ L → n.cron ≠ "" →
    seen.contains n.cron = true ∨ ∃ m ∈ (dedupSeenP seen L).1, m.cron = n.cron := by
  induction L with
  | nil => intro seen n hn; cases hn
  | cons h rest ih =>
    intro seen n hn hne
    rw [dedupSeenP_cons]
    by_cases hskip : h.cron = "" ∨ seen.contains h.cron
    · rw [if_pos hskip]
      rcases List.mem_cons.mp hn with rfl | hn2
      · rcases hskip with h1 | h1
        · exact absurd h1 hne
        · exact Or.inl h1
      · exact ih seen n hn2 hne
    · rw [if_neg hskip]
      rcases List.mem_cons.mp hn with rfl | hn2
      · exact Or.inr ⟨n, List.mem_cons_self n _, rfl⟩
      · rcases ih (h.cron :: seen) n hn2 hne with hc | ⟨m, hm, hmc⟩
        · rw [List.contains_cons] at hc
          rcases Bool.or_eq_true_iff.mp hc with h1 | h1
          · exact Or.inr ⟨h, List.mem_cons_self h _, (beq_iff_eq.mp h1).symm⟩
          · exact Or.inl h1
        · exact Or.inr ⟨m, List.mem_cons_of_mem h hm, hmc⟩

theorem dedup_skipAll (L : List NormEntry) :
    ∀ seen : List String,
    (∀ n ∈ L, n.cron = "" ∨ seen.contains n.cron = true) →
    (dedupSeenP seen L).1 = [] := by
  induction L with
  | nil => intro seen _; rfl
  | cons n rest ih =>
    intro seen h
    have hn := h n (List.mem_cons_self n rest)
    rw [dedupSeenP_cons, if_pos hn]
    exact ih seen (fun m hm => h m (List.mem_cons_of_mem n hm))

theorem dedup_seen_mono (L : List NormEntry) :
    ∀ (seen : List String) (k : String), seen.contains k = true →
    ((dedupSeenP seen L).2).contains k = true := by
  induction L with
  | nil => intro seen k h; exact h
  | cons n rest ih =>
    intro seen k h
    rw [dedupSeenP_cons]
    by_cases hskip : n.cron = "" ∨ seen.contains n.cron
    · rw [if_pos hskip]
      exact ih seen k h
    · rw [if_neg hskip]
      exact ih (n.cron :: seen) k (by rw [List.contains_cons, h, Bool.or_true])

theorem dedup_out_seen (L : List NormEntry) :
    ∀ (seen : List String) (m : NormEntry), m ∈ (dedupSeenP seen L).1 →
    ((dedupSeenP seen L).2).contains m.cron = true := by
  induction L with
  | nil => intro seen m hm; cases hm
  | cons n rest ih =>
    intro seen m hm
    rw [dedupSeenP_cons] at hm ⊢
    by_cases hskip : n.cron = "" ∨ seen.contains n.cron
    · rw [if_pos hskip] at hm ⊢
      exact ih seen m hm
    · rw [if_neg hskip] at hm ⊢
      rcases List.mem_cons.mp hm with rfl | hm2
      · exact dedup_seen_mono rest (m.cron :: seen) m.cron
          (by rw [List.contains_cons]; simp)
      · exact ih (n.cron :: seen) m hm2

theorem dedup_mem (L : List NormEntry) :
    ∀ (seen : List String) (m : NormEntry), m ∈ (dedupSeenP seen L).1 → m ∈ L := by
  induction L with
  | nil => intro seen m hm; cases hm
  | cons n rest ih =>
    intro seen m hm
    rw [dedupSeenP_cons] at hm
    by_cases hskip : n.cron = "" ∨ seen.contains n.cron
    · rw [if_pos hskip] at hm
      exact List.mem_cons_of_mem n (ih seen m hm)
    · rw [if_neg hskip] at hm
      rcases List.mem_cons.mp hm with rfl | hm2
      · exact List.mem_cons_self m rest
      · exact List.mem_cons_of_mem n (ih (n.cron :: seen) m hm2)

theorem mergeAux_ok_all (l : List RawEntry) :
    ∀ (seen : List String) (acc : List NormEntry),
    (∀ e ∈ l, ∃ n, normalizeEntry e = Except.ok n) →
    mergeAux l seen acc = Except.ok (acc ++ (dedupSeenP seen (normalizedList l)).1) := by
  induction l with
  | nil => intro seen acc _; simp [mergeAux, normalizedList, dedupSeenP]
  | cons e rest ih =>
    intro seen acc h
    obtain ⟨n, hn⟩ := h e (List.mem_cons_self e rest)
    have hrest : ∀ e2 ∈ rest, ∃ n2, normalizeEntry e2 = Except.ok n2 :=
      fun e2 he2 => h e2 (List.mem_cons_of_mem e he2)
    have hNL : normalizedList (e :: rest) = n :: normalizedList rest := by
      simp [normalizedList, List.filterMap_cons, hn, Except.toOption]
    rw [hNL, dedupSeenP_cons]
    simp only [mergeAux, hn]
    by_cases hskip : n.cron = "" ∨ seen.contains n.cron
    · rw [if_pos hskip, if_pos hskip, ih seen acc hrest]
    · rw [if_neg hskip, if_neg hskip, ih (n.cron :: seen) (acc ++ [n]) hrest]
      simp

theorem normalizeEntry_ok_canon (e : RawEntry) (n : NormEntry)
    (h : normalizeEntry e = Except.ok n) : normalizeEntry n.toRaw = Except.ok n := by
  unfold normalizeEntry at h
  by_cases hc : pstrip (e.cron.getD "") ≠ "" ∧
      ¬ _validate_cron_expression (pstrip (e.cron.getD "")) = true
  · rw [if_pos hc] at h
    cases h
  · rw [if_neg hc] at h
    injection h with h2
    subst h2
    unfold normalizeEntry NormEntry.toRaw
    simp only [Option.getD_some, pstrip_idem]
    rw [if_neg hc]

theorem normalizedList_map_toRaw (M : List NormEntry)
    (h : ∀ n ∈ M, normalizeEntry n.toRaw = Except.ok n) :
    normalizedList (M.map NormEntry.toRaw) = M := by
  induction M with
  | nil => rfl
  | cons n rest ih =>
    have hrest := fun m hm => h m (List.mem_cons_of_mem n hm)
    rw [List.map_cons]
    show normalizedList (n.toRaw :: rest.map NormEntry.toRaw) = n :: rest
    simp only [normalizedList, List.filterMap_cons, h n (List.mem_cons_self n rest),
      Except.toOption]
    exact congrArg (List.cons n) (ih hrest)

theorem normalizedList_append (a b : List RawEntry) :
    normalizedList (a ++ b) = normalizedList a ++ normalizedList b :=
  List.filterMap_append a b _

/-- Claim C6: for inputs whose entries all pass normalization, the schedule
merge is idempotent — merging the merge result (written back as raw entries)
with the same incoming list reproduces it — and the result is capped at
`MAX_SCHEDULE_ENTRIES` (dedup is by exact equality of the normalized cron
expression, first occurrence wins, order preserved, as embedded in
`_merge_job_schedules`). -/
theorem merge_idempotence (A B : List RawEntry)
    (hv : ∀ e ∈ A ++ B, ∃ n, normalizeEntry e = Except.ok n) :
    ∃ M, _merge_job_schedules A B = Except.ok M ∧
      M.length ≤ MAX_SCHEDULE_ENTRIES ∧
      _merge_job_schedules (M.map NormEntry.toRaw) B = Except.ok M := by
  have h1 : mergeAux (A ++ B) [] [] =
      Except.ok (dedupSeenP [] (normalizedList (A ++ B))).1 := by
    simpa using mergeAux_ok_all (A ++ B) [] [] hv
  refine ⟨((dedupSeenP [] (normalizedList (A ++ B))).1).take MAX_SCHEDULE_ENTRIES,
    ?_, ?_, ?_⟩
  · unfold _merge_job_schedules
    rw [h1]
    rfl
  · rw [List.length_take]
    exact min_le_left _ _
  · have hsound := dedup_sound (normalizedList (A ++ B)) []
    have hMsub : ∀ n ∈ ((dedupSeenP [] (normalizedList (A ++ B))).1).take
        MAX_SCHEDULE_ENTRIES, n ∈ (dedupSeenP [] (normalizedList (A ++ B))).1 :=
      fun n hn => List.mem_of_mem_take hn
    have hMprops : ∀ n ∈ ((dedupSeenP [] (normalizedList (A ++ B))).1).take
        MAX_SCHEDULE_ENTRIES, n.cron ≠ "" ∧ ([] : List String).contains n.cron = false :=
      fun n hn => hsound.1 n (hMsub n hn)
    have hMpw := hsound.2.sublist
      (List.take_sublist MAX_SCHEDULE_ENTRIES (dedupSeenP [] (normalizedList (A ++ B))).1)
    have hfix := dedup_fix _ [] hMprops hMpw
    have hcanon : ∀ n ∈ ((dedupSeenP [] (normalizedList (A ++ B))).1).take
        MAX_SCHEDULE_ENTRIES, normalizeEntry n.toRaw = Except.ok n := by
      intro n hn
      have hmemNL : n ∈ normalizedList (A ++ B) :=
        dedup_mem (normalizedList (A ++ B)) [] n (hMsub n hn)
      obtain ⟨e, he, hfe⟩ := List.mem_filterMap.mp hmemNL
      have heq : normalizeEntry e = Except.ok n := by
        cases hne : normalizeEntry e with
        | error m => rw [hne] at hfe; simp [Except.toOption] at hfe
        | ok m =>
          rw [hne] at hfe
          simp only [Except.toOption, Option.some.injEq] at hfe
          rw [hfe]
      exact normalizeEntry_ok_canon e n heq
    have hv2 : ∀ e ∈ (((dedupSeenP [] (normalizedList (A ++ B))).1).take
        MAX_SCHEDULE_ENTRIES).map NormEntry.toRaw ++ B,
        ∃ n, normalizeEntry e = Except.ok n := by
      intro e he
      rcases List.mem_append.mp he with h3 | h3
      · obtain ⟨n, hn, rfl⟩ := List.mem_map.mp h3
        exact ⟨n, hcanon n hn⟩
      · exact hv e (List.mem_append.mpr (Or.inr h3))
    have h2 := mergeAux_ok_all _ [] [] hv2
    have hNL2 : normalizedList ((((dedupSeenP [] (normalizedList (A ++ B))).1).take
        MAX_SCHEDULE_ENTRIES).map NormEntry.toRaw ++ B) =
        (((dedupSeenP [] (normalizedList (A ++ B))).1).take MAX_SCHEDULE_ENTRIES) ++
          normalizedList B := by
      rw [normalizedList_append, normalizedList_map_toRaw _ hcanon]
    have happ := congrArg Prod.fst (dedup_append
      (((dedupSeenP [] (normalizedList (A ++ B))).1).take MAX_SCHEDULE_ENTRIES)
      (normalizedList B) [])
    simp only at happ
    unfold _merge_job_schedules
    rw [h2, hNL2]
    simp only [List.nil_append, Except.map]
    rw [happ, hfix]
    by_cases hlen : (dedupSeenP [] (normalizedList (A ++ B))).1.length ≤
        MAX_SCHEDULE_ENTRIES
    · have hMD : ((dedupSeenP [] (normalizedList (A ++ B))).1).take
          MAX_SCHEDULE_ENTRIES = (dedupSeenP [] (normalizedList (A ++ B))).1 :=
        List.take_of_length_le hlen
      have hskipNB : (dedupSeenP ((dedupSeenP []
          (((dedupSeenP [] (normalizedList (A ++ B))).1).take
            MAX_SCHEDULE_ENTRIES)).2) (normalizedList B)).1 = [] := by
        apply dedup_skipAll
        intro n hn
        by_cases hce : n.cron = ""
        · exact Or.inl hce
        · right
          have hmemNL : n ∈ normalizedList (A ++ B) := by
            rw [normalizedList_append]
            exact List.mem_append.mpr (Or.inr hn)
          rcases dedup_cover (normalizedList (A ++ B)) [] n hmemNL hce with hc | hc
          · simp [List.contains] at hc
          · obtain ⟨m, hm, hmc⟩ := hc
            rw [← hmc]
            apply dedup_out_seen
            rw [hfix, hMD]
            exact hm
      rw [hskipNB, List.append_nil, List.take_take]
      simp
    · push_neg at hlen
      have hMlen : (((dedupSeenP [] (normalizedList (A ++ B))).1).take
          MAX_SCHEDULE_ENTRIES).length = MAX_SCHEDULE_ENTRIES := by
        rw [List.length_take]
        omega
      rw [List.take_append_eq_append_take, hMlen, Nat.sub_self, List.take_zero,
        List.append_nil, List.take_take]
      simp

/-- Witness for C6 at a concrete input: one valid entry, merged idempotently. -/
theorem merge_idempotence_witness :
    ∃ M, _merge_job_schedules []
        [({ cron := some "0 9 * * 1-5", description := some "daily" } : RawEntry)] =
        Except.ok M ∧
      M.length ≤ MAX_SCHEDULE_ENTRIES ∧
      _merge_job_schedules (M.map NormEntry.toRaw)
        [({ cron := some "0 9 * * 1-5", description := some "daily" } : RawEntry)] =
        Except.ok M :=
  merge_idempotence [] [{ cron := some "0 9 * * 1-5", description := some "daily" }]
    (by
      intro e he
      have he2 : e = { cron := some "0 9 * * 1-5", description := some "daily" } := by
        simpa using he
      subst he2
      exact ⟨⟨"0 9 * * 1-5", "daily", true⟩, rfl⟩)
